import Mathlib

/-!
Verification of the keyword-matching core of `src/matchIcon.ts`
(yoto-auto-icons).

Strings are modelled as `List Char` (one entry per Unicode code point).
The matcher itself is pure; the two backing tables (keyword → synonyms,
keyword → external icon id) are modelled as association lists in JSON
insertion order, matching `Object.entries` iteration order.  The
process-wide caches of `loadSynonyms` / `loadIconMappings` are modelled
by explicit state passing.  JS-specific behaviours are embedded
faithfully: `\w` is `[A-Za-z0-9_]`, `\s` is the ECMAScript whitespace
set, `String.prototype.includes`, `startsWith`, `substring`, `trim`,
`Object.keys`, falsiness of the empty string, and the stable
`Array.prototype.sort`.
-/

abbrev Str := List Char

/-- JS regex `\w`: ASCII letters, digits and underscore. -/
def isWordChar (c : Char) : Bool := c.isAlphanum || c = '_'

/-- The Hebrew Unicode block `U+0590`–`U+05FF` kept by `normalizeText`. -/
def isHebrewChar (c : Char) : Bool := 0x0590 ≤ c.toNat && c.toNat ≤ 0x05FF

/-- ECMAScript whitespace (`\s` and the set removed by `trim`). -/
def isJsWs (c : Char) : Bool :=
  c = ' ' || c = '\t' || c = '\n' || c.toNat = 0x0B || c.toNat = 0x0C ||
  c = '\r' || c.toNat = 0xA0 || c.toNat = 0x1680 ||
  (0x2000 ≤ c.toNat && c.toNat ≤ 0x200A) || c.toNat = 0x2028 ||
  c.toNat = 0x2029 || c.toNat = 0x202F || c.toNat = 0x205F ||
  c.toNat = 0x3000 || c.toNat = 0xFEFF

/-- A character kept by the regex `[^\w\s֐-׿]` replacement in
`normalizeText` (everything else becomes a space). -/
def keepChar (c : Char) : Bool := isWordChar c || isJsWs c || isHebrewChar c

/-- `String.prototype.trim`: drop ECMAScript whitespace from both ends. -/
def jsTrim (l : Str) : Str :=
  ((l.dropWhile isJsWs).reverse.dropWhile isJsWs).reverse

/-- One character of the `replace(/[^\w\s֐-׿]/g, ' ')` pass. -/
def sanitizeChar (c : Char) : Char := if keepChar c then c else ' '

/-- `replace(/\s+/g, ' ')`: collapse each maximal whitespace run to one
space. -/
def collapseWs : Str → Str
  | [] => []
  | [c] => if isJsWs c then [' '] else [c]
  | a :: b :: rest =>
    if isJsWs a && isJsWs b then collapseWs (b :: rest)
    else (if isJsWs a then ' ' else a) :: collapseWs (b :: rest)

/-- `normalizeText` from `matchIcon.ts`: lower-case, trim, replace
non-(word/whitespace/Hebrew) characters by spaces, collapse whitespace
runs, trim again. -/
def normalizeText (s : Str) : Str :=
  jsTrim (collapseWs ((jsTrim (s.map Char.toLower)).map sanitizeChar))

/-- `String.prototype.includes`: `strContains hay needle` holds when
`needle` occurs contiguously inside `hay`. -/
def strContains : Str → Str → Bool
  | [], needle => needle.isEmpty
  | c :: rest, needle => needle.isPrefixOf (c :: rest) || strContains rest needle

/-- `stripHebrewPrefixes` from `matchIcon.ts`: the original word plus the
variants with the leading `ה`, leading `ו`, and leading `וה` removed,
each emitted only above the length threshold of the source
(`length > 2`, `length > 2`, `length > 3` respectively). -/
def stripHebrewPrefixes (word : Str) : List Str :=
  [word]
  ++ (if ['ה'].isPrefixOf word && word.length > 2 then [word.drop 1] else [])
  ++ (if ['ו'].isPrefixOf word && word.length > 2 then [word.drop 1] else [])
  ++ (if ['ו', 'ה'].isPrefixOf word && word.length > 3 then [word.drop 2] else [])

/-- `/[֐-׿]/.test(word)`. -/
def containsHebrew (s : Str) : Bool := s.any isHebrewChar

/-- `normalizeHebrewSpelling` from `matchIcon.ts` (the source just
returns the input as its only variation). -/
def normalizeHebrewSpelling (s : Str) : List Str := [s]

/-- `String.prototype.split(' ')` on a single-space separator; an empty
string yields one empty field, exactly as in JS. -/
def splitOnSpace : Str → List Str
  | [] => [[]]
  | c :: rest =>
    match splitOnSpace rest with
    | [] => [[c]]
    | f :: fs => if c = ' ' then [] :: f :: fs else (c :: f) :: fs

/-- `extractKeywords` from `matchIcon.ts`: the normalized full text,
every token of length > 1, and for each Hebrew-containing token the
token itself, its prefix-stripped variants and its spelling
variations. -/
def extractKeywords (text : Str) : List Str :=
  let normalized := normalizeText text
  let words := (splitOnSpace normalized).filter (fun w => w.length > 1)
  let allVariations := words.flatMap (fun word =>
    if containsHebrew word then
      [word] ++ stripHebrewPrefixes word ++ normalizeHebrewSpelling word
    else [word])
  normalized :: (words ++ allVariations)

/-- The running best fuzzy match of `findBestKeywordMatch`. -/
structure BestAcc where
  bestMatch : Option Str
  bestScore : Nat
deriving DecidableEq, Repr

/-- One `(searchTerm, term)` step of `findBestKeywordMatch`'s inner loop:
an exact hit returns the keyword immediately (`Except.error`), otherwise
a containment hit may improve the running best score. -/
def scanCandidate (keyword searchTerm term : Str) (acc : BestAcc) :
    Except Str BestAcc :=
  let normalizedTerm := normalizeText term
  if normalizedTerm = searchTerm then .error keyword
  else if containsHebrew term &&
      (normalizeHebrewSpelling normalizedTerm).contains searchTerm then
    .error keyword
  else if strContains normalizedTerm searchTerm ||
      strContains searchTerm normalizedTerm then
    let score := max normalizedTerm.length searchTerm.length
    if score > acc.bestScore then .ok ⟨some keyword, score⟩ else .ok acc
  else .ok acc

/-- Inner loop of `findBestKeywordMatch` over `allTerms`. -/
def scanCandidates (keyword searchTerm : Str) (terms : List Str)
    (acc : BestAcc) : Except Str BestAcc :=
  match terms with
  | [] => .ok acc
  | t :: rest =>
    match scanCandidate keyword searchTerm t acc with
    | .error k => .error k
    | .ok acc' => scanCandidates keyword searchTerm rest acc'

/-- Middle loop of `findBestKeywordMatch` over `searchTerms`. -/
def scanSearchTerms (keyword : Str) (searchTerms allTerms : List Str)
    (acc : BestAcc) : Except Str BestAcc :=
  match searchTerms with
  | [] => .ok acc
  | st :: rest =>
    match scanCandidates keyword st allTerms acc with
    | .error k => .error k
    | .ok acc' => scanSearchTerms keyword rest allTerms acc'

/-- Keyword → synonym list, in `Object.entries` order. -/
abbrev SynTable := List (Str × List Str)

/-- Keyword → external icon id, in `Object.entries` order. -/
abbrev IconMap := List (Str × Str)

/-- Outer loop of `findBestKeywordMatch` over the synonym table. -/
def findAux (searchTerms : List Str) : SynTable → BestAcc → Option Str
  | [], acc => acc.bestMatch
  | (keyword, synonymList) :: rest, acc =>
    match scanSearchTerms keyword searchTerms (keyword :: synonymList) acc with
    | .error k => some k
    | .ok acc' => findAux searchTerms rest acc'

/-- `findBestKeywordMatch` from `matchIcon.ts`. -/
def findBestKeywordMatch (searchTerms : List Str) (synonyms : SynTable) :
    Option Str :=
  findAux searchTerms synonyms ⟨none, 0⟩

/-- `iconMappings[keyword] || null`: an absent key or an empty-string
value (falsy in JS) gives `null`. -/
def lookupIcon (iconMappings : IconMap) (keyword : Str) : Option Str :=
  match List.lookup keyword iconMappings with
  | some v => if v.isEmpty then none else some v
  | none => none

/-- The `confidence` field of a match result; `part` models the source's
string `'partial'`. -/
inductive Confidence
  | exact
  | part
  | none
deriving DecidableEq, Repr

/-- Result record of `matchIcon`. -/
structure MatchResult where
  keyword : Option Str
  iconId : Option Str
  confidence : Confidence
  searchTerms : List Str
deriving DecidableEq, Repr

/-- `matchIcon` from `matchIcon.ts`, with the two tables injected (the
source obtains them through `loadSynonyms`/`loadIconMappings`).  The JS
guard `if (!keyword)` treats both `null` and the empty string as a
failed lookup. -/
def matchIcon (synonyms : SynTable) (iconMappings : IconMap)
    (trackTitle : Str) : MatchResult :=
  let searchTerms := extractKeywords trackTitle
  match findBestKeywordMatch searchTerms synonyms with
  | Option.none => ⟨Option.none, Option.none, Confidence.none, searchTerms⟩
  | some keyword =>
    if keyword.isEmpty then
      ⟨Option.none, Option.none, Confidence.none, searchTerms⟩
    else
      let iconId := lookupIcon iconMappings keyword
      let confidence :=
        if normalizeText keyword ∈ searchTerms then Confidence.exact
        else Confidence.part
      ⟨some keyword, iconId, confidence, searchTerms⟩

/-- Result record of `getIconMappingStats`. -/
structure MappingStats where
  totalKeywords : Nat
  mappedKeywords : Nat
  unmappedKeywords : List Str
deriving DecidableEq, Repr

/-- `getIconMappingStats` from `matchIcon.ts`.  `mappedKeywords` is
`Object.keys(iconMappings).length`; the `unmappedKeywords` filter keeps
a synonym key when `iconMappings[keyword]` is falsy (absent key or empty
string). -/
def getIconMappingStats (synonyms : SynTable) (iconMappings : IconMap) :
    MappingStats :=
  { totalKeywords := synonyms.length
    mappedKeywords := iconMappings.length
    unmappedKeywords := (synonyms.map Prod.fst).filter (fun keyword =>
      match List.lookup keyword iconMappings with
      | some v => v.isEmpty
      | none => true) }

/-- One entry produced by `suggestMatches`. -/
structure Suggestion where
  keyword : Str
  iconId : Option Str
  relevance : Rat
deriving DecidableEq, Repr

/-- One `(searchTerm, term)` step of the `suggestMatches` relevance loop:
on a containment hit, fold in `(min len / max len) * 100`. -/
def pairStep (searchTerm term : Str) (m : Rat) : Rat :=
  let normalizedTerm := normalizeText term
  if strContains normalizedTerm searchTerm ||
      strContains searchTerm normalizedTerm then
    max m ((((min normalizedTerm.length searchTerm.length : Nat) : Rat) /
      ((max normalizedTerm.length searchTerm.length : Nat) : Rat)) * 100)
  else m

/-- The inner relevance loop of `suggestMatches` over one keyword's
candidate terms, for a fixed search term. -/
def innerFold (searchTerm : Str) (allTerms : List Str) (m : Rat) : Rat :=
  allTerms.foldl (fun m' t => pairStep searchTerm t m') m

/-- The `maxRelevance` accumulation of `suggestMatches` for one keyword's
terms. -/
def maxRelevance (searchTerms allTerms : List Str) : Rat :=
  searchTerms.foldl (fun m st => innerFold st allTerms m) 0

/-- Stable insertion used to model `Array.prototype.sort` (stable by the
ECMAScript specification) with comparator `(a, b) => b.relevance -
a.relevance`: a later element is placed after every earlier element of
greater-or-equal relevance. -/
def sortInsert (x : Suggestion) : List Suggestion → List Suggestion
  | [] => [x]
  | y :: ys =>
    if y.relevance < x.relevance then x :: y :: ys else y :: sortInsert x ys

/-- Stable descending sort by `relevance`. -/
def sortByRelevance (l : List Suggestion) : List Suggestion :=
  l.foldl (fun acc x => sortInsert x acc) []

/-- The unsorted suggestion list of `suggestMatches`: one entry per
synonym-table keyword with positive `maxRelevance`, in table order. -/
def rawSuggestions (synonyms : SynTable) (iconMappings : IconMap)
    (searchTerms : List Str) : List Suggestion :=
  synonyms.filterMap (fun e =>
    let mr := maxRelevance searchTerms (e.1 :: e.2)
    if 0 < mr then some ⟨e.1, lookupIcon iconMappings e.1, mr⟩
    else Option.none)

/-- `suggestMatches` from `matchIcon.ts`, with the tables injected:
collect positive-relevance keywords, sort descending (stable), truncate
to `limit`. -/
def suggestMatches (synonyms : SynTable) (iconMappings : IconMap)
    (trackTitle : Str) (limit : Nat) : List Suggestion :=
  (sortByRelevance
    (rawSuggestions synonyms iconMappings (extractKeywords trackTitle))).take limit

/-- The claim-side containment condition of the suggestion relevance:
one of the two strings occurs inside the other. -/
def oneContains (a b : Str) : Bool := strContains a b || strContains b a

/-- The claim-side relevance formula `100 * min(len) / max(len)`. -/
def specRelevance (a b : Str) : Rat :=
  100 * ((min a.length b.length : Nat) : Rat) /
    ((max a.length b.length : Nat) : Rat)

/-- The two languages supported by the tool. -/
inductive Lang
  | english
  | hebrew
deriving DecidableEq, Repr

/-- The module-level `synonymsCache` of `matchIcon.ts`: a single
process-wide cell, not keyed by language. -/
structure CacheState where
  synonymsCache : Option SynTable
deriving DecidableEq, Repr

/-- `loadSynonyms` from `matchIcon.ts` with the filesystem modelled as a
map from language to the parsed synonyms file: `if (synonymsCache)
return synonymsCache;` ignores the requested language; on a cache miss
the language-specific file is read and cached. -/
def loadSynonyms (fs : Lang → SynTable) (language : Lang)
    (st : CacheState) : SynTable × CacheState :=
  match st.synonymsCache with
  | some cached => (cached, st)
  | none =>
    let table := fs language
    (table, ⟨some table⟩)

/-! ### Demonstration tables used by concrete theorems -/

/-- A one-keyword English table: `dog` with synonym `puppy`. -/
def dogTable : SynTable := [("dog".toList, ["puppy".toList])]

/-- A Hebrew table containing only the keyword `ציפור`. -/
def birdTable : SynTable := [("ציפור".toList, ["ציפור".toList])]

/-- Synonyms-file contents per language, as parsed from disk. -/
def demoFiles : Lang → SynTable
  | Lang.english => dogTable
  | Lang.hebrew => [("ציפור".toList, [])]

/-- The exact-hit condition for one table entry: some candidate term
(keyword or synonym) normalizes to one of the search terms — exactly the
condition on which `findBestKeywordMatch` returns immediately. -/
def hasExactHit (searchTerms : List Str) (e : Str × List Str) : Bool :=
  (e.1 :: e.2).any (fun t => decide (normalizeText t ∈ searchTerms))

/-- A table whose first entry has only a long fuzzy overlap with the
search term `dog` and whose second entry hits it exactly. -/
def fuzzyThenExactTable : SynTable :=
  [("catapult".toList, ["dogdogdogdog".toList]),
   ("dog".toList, ["dog".toList])]

/-- A canonical string: the exact image of `normalizeText` — lower-case
fixed, only kept characters, whitespace is a single plain space, never
two adjacent whitespace characters, and no whitespace at either edge. -/
def CanonStr (l : Str) : Prop :=
  (∀ c ∈ l, Char.toLower c = c) ∧
  (∀ c ∈ l, keepChar c = true) ∧
  (∀ c ∈ l, isJsWs c = true → c = ' ') ∧
  l.Chain' (fun a b => ¬(isJsWs a = true ∧ isJsWs b = true)) ∧
  (∀ c, l.head? = some c → isJsWs c = false) ∧
  (∀ c, l.getLast? = some c → isJsWs c = false)

/-! ### C1 -/

/-- C1, counterexample: with the non-empty synonym table `dogTable` and
an empty icon mapping, `matchIcon` on the empty title returns confidence
`partial` (the empty search term containment-matches every candidate
term), not `none` as the claim states for every synonym table. -/
theorem c1_counterexample :
    (matchIcon dogTable [] "".toList).confidence = Confidence.part ∧
    (matchIcon dogTable [] "".toList).keyword = some "dog".toList ∧
    Confidence.part ≠ Confidence.none := by decide

/-- C1, amended: `matchIcon` is a total function, so it never fails; on
the empty synonym table every title — in particular the empty title —
deterministically yields `confidence = none` and a null keyword.  (With
a non-empty table the empty title's sole search term `""` is contained
in every candidate term, so the result need not be `none`.) -/
theorem c1_empty_table_none (iconMappings : IconMap) (title : Str) :
    (matchIcon [] iconMappings title).confidence = Confidence.none ∧
    (matchIcon [] iconMappings title).keyword = Option.none := by
  simp [matchIcon, findBestKeywordMatch, findAux]

/-! ### C2 -/

/-- C2: in every `matchIcon` result, a non-null `iconId` requires a
non-null `keyword` that is present in the icon mapping, and confidence
`exact` requires that one of the returned search terms equals the
normalized form of the returned keyword. -/
theorem c2_result_invariants (synonyms : SynTable) (iconMappings : IconMap)
    (title : Str) :
    ((matchIcon synonyms iconMappings title).iconId ≠ Option.none →
      (matchIcon synonyms iconMappings title).keyword ≠ Option.none ∧
      ∃ kw v, (matchIcon synonyms iconMappings title).keyword = some kw ∧
        List.lookup kw iconMappings = some v) ∧
    ((matchIcon synonyms iconMappings title).confidence = Confidence.exact →
      ∃ kw, (matchIcon synonyms iconMappings title).keyword = some kw ∧
        normalizeText kw ∈ (matchIcon synonyms iconMappings title).searchTerms) := by
  unfold matchIcon
  cases hf : findBestKeywordMatch (extractKeywords title) synonyms with
  | none => simp [hf]
  | some kw =>
    by_cases hk : kw.isEmpty
    · simp [hf, hk]
    · simp only [hf, hk, Bool.false_eq_true, if_false]
      constructor
      · intro hid
        refine ⟨by simp, kw, ?_⟩
        revert hid
        unfold lookupIcon
        cases hl : List.lookup kw iconMappings with
        | none => simp
        | some v => by_cases hv : v.isEmpty <;> simp [hv]
      · intro hc
        refine ⟨kw, rfl, ?_⟩
        by_cases hm : normalizeText kw ∈ extractKeywords title
        · simpa using hm
        · simp [hm] at hc

/-- C2, witness: at the concrete input `dogTable`, mapping
`dog ↦ yoto:#1`, title `"dog"`, both hypotheses hold and the theorem
yields the invariant facts. -/
theorem c2_witness :
    (matchIcon dogTable [("dog".toList, "yoto:#1".toList)] "dog".toList).keyword
      ≠ Option.none ∧
    ∃ kw, (matchIcon dogTable [("dog".toList, "yoto:#1".toList)] "dog".toList).keyword
        = some kw ∧
      normalizeText kw ∈
        (matchIcon dogTable [("dog".toList, "yoto:#1".toList)] "dog".toList).searchTerms := by
  have h := c2_result_invariants dogTable [("dog".toList, "yoto:#1".toList)] "dog".toList
  exact ⟨(h.1 (by decide)).1, h.2 (by decide)⟩

/-! ### C4 -/

/-- C4, counterexample: the claim admits the two-character-stripped
variant only when the token has at least 3 more characters after `וה`
(total length ≥ 5), but the source condition is `length > 3`: the
4-character word `והדב` already gets the variant `דב`. -/
theorem c4_counterexample :
    "דב".toList ∈ stripHebrewPrefixes "והדב".toList ∧
    ("והדב".toList).length = 4 := by decide

/-- `[c].isPrefixOf w` is `startsWith` with a one-character prefix. -/
theorem singleton_isPrefixOf_iff (c : Char) (w : Str) :
    ([c].isPrefixOf w = true) ↔ w.take 1 = [c] := by
  cases w with
  | nil => simp [List.isPrefixOf]
  | cons a rest =>
    simp only [List.isPrefixOf, List.take, Bool.and_eq_true, beq_iff_eq]
    constructor
    · rintro ⟨rfl, -⟩; rfl
    · intro h
      injection h with h1 h2
      simp [h1]

/-- `[c, d].isPrefixOf w` is `startsWith` with a two-character prefix. -/
theorem pair_isPrefixOf_iff (c d : Char) (w : Str) :
    ([c, d].isPrefixOf w = true) ↔ w.take 2 = [c, d] := by
  cases w with
  | nil => simp [List.isPrefixOf]
  | cons a rest =>
    cases rest with
    | nil => simp [List.isPrefixOf, List.take]
    | cons b rest' =>
      simp only [List.isPrefixOf, List.take, Bool.and_eq_true, beq_iff_eq]
      constructor
      · rintro ⟨rfl, h, -⟩
        simp [h]
      · intro h
        injection h with h1 h2
        injection h2 with h2 h3
        simp [h1, h2]

/-- C4, amended: as the claim states, but the two-letter combination
`וה` requires at least **2** more characters (source condition
`length > 3`), not 3; the variants are exactly the word itself, the
tail when the word starts with `ה` or `ו` and has ≥ 3 characters, and
the drop-2 when it starts with `וה` and has ≥ 4 characters, with at
most 4 variants emitted. -/
theorem c4_variants (w v : Str) :
    (v ∈ stripHebrewPrefixes w ↔
      v = w ∨
      (2 < w.length ∧ (w.take 1 = ['ה'] ∨ w.take 1 = ['ו']) ∧ v = w.drop 1) ∨
      (3 < w.length ∧ w.take 2 = ['ו', 'ה'] ∧ v = w.drop 2)) ∧
    (stripHebrewPrefixes w).length ≤ 4 := by
  constructor
  · unfold stripHebrewPrefixes
    split_ifs <;>
      simp only [Bool.and_eq_true, decide_eq_true_iff, singleton_isPrefixOf_iff,
        pair_isPrefixOf_iff, not_and, List.mem_append, List.mem_singleton,
        List.not_mem_nil, List.mem_cons, or_false] at * <;>
      tauto
  · unfold stripHebrewPrefixes
    split_ifs <;> simp

/-! ### C5 -/

/-- C5: the `synonymsCache` cell is not keyed by language.  With distinct
English and Hebrew synonym files on disk, `loadSynonyms english` followed
by `loadSynonyms hebrew` returns the cached English table for the Hebrew
request — the guard `if (synonymsCache) return synonymsCache;` ignores
the `language` argument — contradicting the claim that every call
returns the table of the requested language. -/
theorem c5_cache_ignores_language :
    (loadSynonyms demoFiles Lang.english ⟨Option.none⟩).1 = dogTable ∧
    (loadSynonyms demoFiles Lang.hebrew
      (loadSynonyms demoFiles Lang.english ⟨Option.none⟩).2).1 = dogTable ∧
    (loadSynonyms demoFiles Lang.hebrew
        (loadSynonyms demoFiles Lang.english ⟨Option.none⟩).2).1
      ≠ demoFiles Lang.hebrew := by
  refine ⟨rfl, rfl, ?_⟩
  decide

/-! ### C9 -/

/-- C9: on the title `"הציפור ששכחה לעוף"` with a table whose keyword
`ציפור` lists the synonym `ציפור`, the prefix `ה` is stripped from the
token `הציפור`, so `ציפור` is among the search terms and `matchIcon`
returns keyword `ציפור` with confidence `exact`. -/
theorem c9_hebrew_example :
    (matchIcon birdTable [] "הציפור ששכחה לעוף".toList).keyword
      = some "ציפור".toList ∧
    (matchIcon birdTable [] "הציפור ששכחה לעוף".toList).confidence
      = Confidence.exact ∧
    "ציפור".toList ∈
      (matchIcon birdTable [] "הציפור ששכחה לעוף".toList).searchTerms := by
  decide

/-! ### C10 -/

/-- C10: the confidence tier only depends on whether the returned
keyword's own normalized form occurs among the search terms, regardless
of how the keyword was found.  Concretely, the title `"puppy"` matches
keyword `dog` through the exact short-circuit on the synonym `puppy`
(`normalizeText "puppy"` is a search term), yet the confidence is
`partial` because `normalizeText "dog"` is not a search term; in
general, whenever `matchIcon` returns a keyword, its confidence is
`exact` iff the normalized keyword occurs among the extracted search
terms. -/
theorem c10_confidence_ignores_match_path :
    ((matchIcon dogTable [] "puppy".toList).keyword = some "dog".toList ∧
      (matchIcon dogTable [] "puppy".toList).confidence = Confidence.part ∧
      normalizeText "puppy".toList ∈
        (matchIcon dogTable [] "puppy".toList).searchTerms ∧
      normalizeText "dog".toList ∉
        (matchIcon dogTable [] "puppy".toList).searchTerms) ∧
    (∀ (synonyms : SynTable) (iconMappings : IconMap) (title : Str) (kw : Str),
      (matchIcon synonyms iconMappings title).keyword = some kw →
      (matchIcon synonyms iconMappings title).confidence =
        (if normalizeText kw ∈ extractKeywords title then Confidence.exact
         else Confidence.part)) := by
  constructor
  · decide
  · intro synonyms iconMappings title kw hkw
    revert hkw
    unfold matchIcon
    cases hf : findBestKeywordMatch (extractKeywords title) synonyms with
    | none => simp [hf]
    | some kw' =>
      by_cases hk : kw'.isEmpty
      · simp [hf, hk]
      · simp only [hf, hk, Bool.false_eq_true, if_false]
        intro hkw
        injection hkw with h
        subst h
        rfl

/-- C10, witness: applying the general confidence characterization at
the concrete input recovers the `partial` tier. -/
theorem c10_witness :
    (matchIcon dogTable [] "puppy".toList).confidence = Confidence.part := by
  have h := c10_confidence_ignores_match_path.2 dogTable [] "puppy".toList
    "dog".toList (by decide)
  rw [h]
  decide

/-! ### C3 -/

/-- A candidate term that normalizes to the search term makes the scan
step return the keyword at once. -/
theorem scanCandidate_hit (kw st t : Str) (acc : BestAcc)
    (h : normalizeText t = st) :
    scanCandidate kw st t acc = .error kw := by
  simp [scanCandidate, h]

/-- A candidate term that does not normalize to the search term never
short-circuits: the step returns some updated accumulator. -/
theorem scanCandidate_miss (kw st t : Str) (acc : BestAcc)
    (h : normalizeText t ≠ st) :
    ∃ acc', scanCandidate kw st t acc = .ok acc' := by
  unfold scanCandidate
  simp only [normalizeHebrewSpelling]
  rw [if_neg h]
  split_ifs with h2
  · exfalso
    rw [Bool.and_eq_true] at h2
    have h3 := h2.2
    simp only [List.contains, List.elem_cons, List.elem_nil] at h3
    rcases Bool.or_eq_true_iff.mp h3 with h4 | h4
    · have h5 : st = normalizeText t := by simpa using h4
      exact h h5.symm
    · simp at h4
  all_goals exact ⟨_, rfl⟩

/-- If some candidate term hits the search term exactly, the candidate
loop errors with the keyword. -/
theorem scanCandidates_hit (kw st : Str) (ts : List Str) (acc : BestAcc)
    (h : ∃ t ∈ ts, normalizeText t = st) :
    scanCandidates kw st ts acc = .error kw := by
  induction ts generalizing acc with
  | nil => simp at h
  | cons t rest ih =>
    by_cases h0 : normalizeText t = st
    · simp [scanCandidates, scanCandidate_hit kw st t acc h0]
    · obtain ⟨acc', hac⟩ := scanCandidate_miss kw st t acc h0
      rcases h with ⟨t', ht', he⟩
      have ht'' : t' ∈ rest := by
        rcases List.mem_cons.mp ht' with rfl | hm
        · exact absurd he h0
        · exact hm
      simp only [scanCandidates, hac]
      exact ih acc' ⟨t', ht'', he⟩

/-- If no candidate term hits the search term exactly, the candidate
loop completes with some accumulator. -/
theorem scanCandidates_miss (kw st : Str) (ts : List Str) (acc : BestAcc)
    (h : ∀ t ∈ ts, normalizeText t ≠ st) :
    ∃ acc', scanCandidates kw st ts acc = .ok acc' := by
  induction ts generalizing acc with
  | nil => exact ⟨acc, rfl⟩
  | cons t rest ih =>
    obtain ⟨acc', hac⟩ := scanCandidate_miss kw st t acc (h t (by simp))
    obtain ⟨acc'', hrec⟩ := ih acc' (fun t' ht' => h t' (List.mem_cons_of_mem _ ht'))
    exact ⟨acc'', by simp [scanCandidates, hac, hrec]⟩

/-- If some (search term, candidate term) pair is an exact hit, the
entry scan errors with the keyword. -/
theorem scanSearchTerms_hit (kw : Str) (searchTerms allTerms : List Str)
    (acc : BestAcc)
    (h : ∃ st ∈ searchTerms, ∃ t ∈ allTerms, normalizeText t = st) :
    scanSearchTerms kw searchTerms allTerms acc = .error kw := by
  induction searchTerms generalizing acc with
  | nil => simp at h
  | cons st rest ih =>
    by_cases h0 : ∃ t ∈ allTerms, normalizeText t = st
    · simp [scanSearchTerms, scanCandidates_hit kw st allTerms acc h0]
    · obtain ⟨acc', hac⟩ := scanCandidates_miss kw st allTerms acc
        (fun t ht he => h0 ⟨t, ht, he⟩)
      rcases h with ⟨st', hst', t', ht', he⟩
      have hst'' : st' ∈ rest := by
        rcases List.mem_cons.mp hst' with rfl | hm
        · exact absurd ⟨t', ht', he⟩ h0
        · exact hm
      simp only [scanSearchTerms, hac]
      exact ih acc' ⟨st', hst'', t', ht', he⟩

/-- If no pair is an exact hit, the entry scan completes with some
accumulator. -/
theorem scanSearchTerms_miss (kw : Str) (searchTerms allTerms : List Str)
    (acc : BestAcc)
    (h : ∀ st ∈ searchTerms, ∀ t ∈ allTerms, normalizeText t ≠ st) :
    ∃ acc', scanSearchTerms kw searchTerms allTerms acc = .ok acc' := by
  induction searchTerms generalizing acc with
  | nil => exact ⟨acc, rfl⟩
  | cons st rest ih =>
    obtain ⟨acc', hac⟩ := scanCandidates_miss kw st allTerms acc (h st (by simp))
    obtain ⟨acc'', hrec⟩ := ih acc'
      (fun st' hst' => h st' (List.mem_cons_of_mem _ hst'))
    exact ⟨acc'', by simp [scanSearchTerms, hac, hrec]⟩

/-- The table scan returns the keyword of the first entry with an exact
hit, for any starting accumulator. -/
theorem findAux_exact (searchTerms : List Str) (syns : SynTable)
    (e : Str × List Str)
    (h : syns.find? (hasExactHit searchTerms) = some e) (acc : BestAcc) :
    findAux searchTerms syns acc = some e.1 := by
  induction syns generalizing acc with
  | nil => simp at h
  | cons ent rest ih =>
    by_cases hh : hasExactHit searchTerms ent = true
    · rw [List.find?_cons_of_pos _ hh] at h
      injection h with h
      subst h
      have hhit : ∃ st ∈ searchTerms, ∃ t ∈ ent.1 :: ent.2,
          normalizeText t = st := by
        unfold hasExactHit at hh
        rw [List.any_eq_true] at hh
        rcases hh with ⟨t, ht, hdec⟩
        rw [decide_eq_true_iff] at hdec
        exact ⟨normalizeText t, hdec, t, ht, rfl⟩
      obtain ⟨kw, sl⟩ := ent
      simp [findAux, scanSearchTerms_hit kw searchTerms (kw :: sl) acc hhit]
    · rw [List.find?_cons_of_neg _ hh] at h
      have hmiss : ∀ st ∈ searchTerms, ∀ t ∈ ent.1 :: ent.2,
          normalizeText t ≠ st := by
        intro st hst t ht he
        apply hh
        unfold hasExactHit
        rw [List.any_eq_true]
        exact ⟨t, ht, by rw [decide_eq_true_iff, he]; exact hst⟩
      obtain ⟨acc', hac⟩ :=
        scanSearchTerms_miss ent.1 searchTerms (ent.1 :: ent.2) acc hmiss
      obtain ⟨kw, sl⟩ := ent
      simp only [findAux, hac]
      exact ih h acc'

/-- C3: if the synonym table has an entry with an exact hit (some search
term equals the normalized keyword or a normalized synonym of that
entry), then `findBestKeywordMatch` returns the keyword of the first
such entry in table order, regardless of any fuzzy containment overlap
elsewhere. -/
theorem c3_exact_match_priority (searchTerms : List Str)
    (synonyms : SynTable) (e : Str × List Str)
    (h : synonyms.find? (hasExactHit searchTerms) = some e) :
    findBestKeywordMatch searchTerms synonyms = some e.1 :=
  findAux_exact searchTerms synonyms e h ⟨Option.none, 0⟩

/-- C3, witness: in `fuzzyThenExactTable`, the first entry's synonym
`dogdogdogdog` has a containment overlap of score 12 with the search
term `dog`, but the second entry's exact hit wins. -/
theorem c3_witness :
    fuzzyThenExactTable.find? (hasExactHit ["dog".toList])
        = some ("dog".toList, ["dog".toList]) ∧
    findBestKeywordMatch ["dog".toList] fuzzyThenExactTable
      = some "dog".toList := by
  refine ⟨by decide, ?_⟩
  exact c3_exact_match_priority ["dog".toList] fuzzyThenExactTable
    ("dog".toList, ["dog".toList]) (by decide)

/-! ### C6 -/

/-- C6, counterexample: with synonym table `{a: []}` and icon mapping
`{a: ""}`, the keyword `a` is present in the icon mapping yet the code
reports `mapped = 1` (it counts every icon-mapping key, including the
empty-valued one — the claim's count of keys with a non-empty value is
`0`) and lists `a` as unmapped (the claim's list of keys *absent* from
the mapping is empty). -/
theorem c6_counterexample :
    (getIconMappingStats [("a".toList, [])] [("a".toList, "".toList)]).mappedKeywords
      = 1 ∧
    (([("a".toList, "".toList)] : IconMap).filter
        (fun p => !p.2.isEmpty)).length = 0 ∧
    (getIconMappingStats [("a".toList, [])] [("a".toList, "".toList)]).unmappedKeywords
      = ["a".toList] ∧
    List.lookup "a".toList ([("a".toList, "".toList)] : IconMap)
      = some "".toList := by
  decide

/-- C6, amended: `total` counts the synonym-table keys, `mapped` counts
**all** icon-mapping keys (whether or not their value is empty or their
key occurs in the synonym table), and `unmapped` lists, in table order,
exactly the synonym-table keys whose icon-mapping value is absent or the
empty string; in particular a synonym key absent from the icon mapping
appears in `unmapped`. -/
theorem c6_stats_characterization (synonyms : SynTable)
    (iconMappings : IconMap) :
    (getIconMappingStats synonyms iconMappings).totalKeywords
      = synonyms.length ∧
    (getIconMappingStats synonyms iconMappings).mappedKeywords
      = iconMappings.length ∧
    (∀ kw, kw ∈ (getIconMappingStats synonyms iconMappings).unmappedKeywords ↔
      (kw ∈ synonyms.map Prod.fst ∧
        ∀ v, List.lookup kw iconMappings = some v → v = [])) := by
  refine ⟨rfl, rfl, ?_⟩
  intro kw
  unfold getIconMappingStats
  rw [List.mem_filter]
  constructor
  · rintro ⟨hmem, hpred⟩
    refine ⟨hmem, ?_⟩
    intro v hv
    rw [hv] at hpred
    simpa using hpred
  · rintro ⟨hmem, hval⟩
    refine ⟨hmem, ?_⟩
    cases hl : List.lookup kw iconMappings with
    | none => simp [hl]
    | some v => simp [hl, hval v hl]

/-- C6, witness: the amended characterization applied at a one-keyword
table with an empty icon mapping shows the keyword is listed as
unmapped. -/
theorem c6_witness :
    "a".toList ∈
      (getIconMappingStats [("a".toList, [])] []).unmappedKeywords := by
  exact ((c6_stats_characterization [("a".toList, [])] []).2.2 "a".toList).mpr
    ⟨by decide, by intro v hv; cases hv⟩

/-! ### C8 -/

/-- Code point of `Char.ofNat` applied to a lower-cased ASCII letter. -/
theorem char_ofNat_add32_toNat (n : Nat) (h1 : 65 ≤ n) (h2 : n ≤ 90) :
    (Char.ofNat (n + 32)).toNat = n + 32 := by
  have hv : (n + 32).isValidChar := Or.inl (by omega)
  simp [Char.ofNat, hv, Char.ofNatAux, Char.toNat, UInt32.toNat,
    BitVec.toNat_ofNatLt]

/-- Unfolding of `Char.toLower` (an ASCII-range case split). -/
theorem toLower_eq (c : Char) :
    c.toLower =
      if c.toNat ≥ 65 ∧ c.toNat ≤ 90 then Char.ofNat (c.toNat + 32) else c :=
  rfl

/-- Lower-casing a character twice equals lower-casing it once. -/
theorem toLower_toLower (c : Char) : c.toLower.toLower = c.toLower := by
  rw [toLower_eq c]
  by_cases h : c.toNat ≥ 65 ∧ c.toNat ≤ 90
  · rw [if_pos h, toLower_eq,
      if_neg (by rw [char_ofNat_add32_toNat c.toNat h.1 h.2]; omega)]
  · rw [if_neg h, toLower_eq, if_neg h]

/-- Mapping a function that fixes every element of a list is the
identity. -/
theorem map_eq_self_of_fixed {f : Char → Char} {l : Str}
    (h : ∀ c ∈ l, f c = c) : l.map f = l := by
  induction l with
  | nil => rfl
  | cons a rest ih =>
    simp only [List.map_cons, h a (by simp),
      ih (fun c hc => h c (by simp [hc]))]

/-- `dropWhile` is the identity when the head fails the predicate. -/
theorem dropWhile_eq_self_of_head {p : Char → Bool} {l : Str}
    (h : ∀ c, l.head? = some c → p c = false) : l.dropWhile p = l := by
  cases l with
  | nil => rfl
  | cons a rest => simp [List.dropWhile_cons, h a rfl]

/-- `jsTrim` is the identity when neither edge is whitespace. -/
theorem jsTrim_eq_self {l : Str}
    (h1 : ∀ c, l.head? = some c → isJsWs c = false)
    (h2 : ∀ c, l.getLast? = some c → isJsWs c = false) :
    jsTrim l = l := by
  unfold jsTrim
  rw [dropWhile_eq_self_of_head h1, dropWhile_eq_self_of_head
    (fun c hc => h2 c (by rwa [List.head?_reverse] at hc)),
    List.reverse_reverse]

/-- `collapseWs` is the identity when every whitespace character is a
plain space and no two adjacent characters are both whitespace. -/
theorem collapseWs_eq_self {l : Str}
    (hs : ∀ c ∈ l, isJsWs c = true → c = ' ')
    (hadj : l.Chain' (fun a b => ¬(isJsWs a = true ∧ isJsWs b = true))) :
    collapseWs l = l := by
  induction l with
  | nil => rfl
  | cons a rest ih =>
    cases rest with
    | nil =>
      simp only [collapseWs]
      split_ifs with h
      · rw [hs a (by simp) h]
      · rfl
    | cons b rest' =>
      rw [collapseWs,
        if_neg (by simpa [Bool.and_eq_true] using (List.chain'_cons.mp hadj).1)]
      congr 1
      · split_ifs with h
        · exact (hs a (by simp) h).symm
        · rfl
      · exact ih (fun c hc h => hs c (by simp [hc]) h)
          (List.chain'_cons.mp hadj).2

/-- `normalizeText` fixes canonical strings. -/
theorem normalizeText_eq_self {l : Str} (h : CanonStr l) :
    normalizeText l = l := by
  obtain ⟨h1, h2, h3, h4, h5, h6⟩ := h
  unfold normalizeText
  rw [map_eq_self_of_fixed h1, jsTrim_eq_self h5 h6,
    map_eq_self_of_fixed (fun c hc => by simp [sanitizeChar, h2 c hc]),
    collapseWs_eq_self h3 h4, jsTrim_eq_self h5 h6]

/-- Members of `dropWhile` come from the list. -/
theorem mem_dropWhile {p : Char → Bool} {l : Str} {c : Char}
    (h : c ∈ l.dropWhile p) : c ∈ l :=
  List.Sublist.mem h (List.dropWhile_sublist p)

/-- Members of `jsTrim l` come from `l`. -/
theorem mem_jsTrim {l : Str} {c : Char} (h : c ∈ jsTrim l) : c ∈ l := by
  unfold jsTrim at h
  rw [List.mem_reverse] at h
  have h' := mem_dropWhile h
  rw [List.mem_reverse] at h'
  exact mem_dropWhile h'

/-- Members of `collapseWs l` are spaces or members of `l`. -/
theorem mem_collapseWs {l : Str} {c : Char} (h : c ∈ collapseWs l) :
    c = ' ' ∨ c ∈ l := by
  induction l with
  | nil => simp [collapseWs] at h
  | cons a rest ih =>
    cases rest with
    | nil =>
      simp only [collapseWs] at h
      split_ifs at h with hw
      · left; simpa using h
      · right; simpa using h
    | cons b rest' =>
      rw [collapseWs] at h
      split_ifs at h with hw ha
      · rcases ih h with h' | h'
        · exact Or.inl h'
        · exact Or.inr (List.mem_cons_of_mem _ h')
      · rcases List.mem_cons.mp h with h' | h'
        · exact Or.inl h'
        · rcases ih h' with h'' | h''
          · exact Or.inl h''
          · exact Or.inr (List.mem_cons_of_mem _ h'')
      · rcases List.mem_cons.mp h with h' | h'
        · exact Or.inr (by simp [h'])
        · rcases ih h' with h'' | h''
          · exact Or.inl h''
          · exact Or.inr (List.mem_cons_of_mem _ h'')

/-- Every whitespace character in `collapseWs l` is a plain space. -/
theorem ws_collapseWs {l : Str} {c : Char} (h : c ∈ collapseWs l)
    (hw : isJsWs c = true) : c = ' ' := by
  induction l with
  | nil => simp [collapseWs] at h
  | cons a rest ih =>
    cases rest with
    | nil =>
      simp only [collapseWs] at h
      split_ifs at h with ha
      · simpa using h
      · have := (by simpa using h : c = a)
        subst this
        rw [hw] at ha
        exact absurd rfl ha
    | cons b rest' =>
      rw [collapseWs] at h
      split_ifs at h with hab ha
      · exact ih h
      · rcases List.mem_cons.mp h with h' | h'
        · exact h'
        · exact ih h'
      · rcases List.mem_cons.mp h with h' | h'
        · subst h'
          rw [hw] at ha
          exact absurd rfl ha
        · exact ih h'

/-- The head of `collapseWs` on a list with a non-whitespace head. -/
theorem collapseWs_head?_of_not_ws {b : Char} {rest : Str}
    (h : isJsWs b = false) : (collapseWs (b :: rest)).head? = some b := by
  cases rest with
  | nil => simp [collapseWs, h]
  | cons c rest' =>
    rw [collapseWs, if_neg (by simp [h]), List.head?_cons]
    simp [h]

/-- `collapseWs` never produces two adjacent whitespace characters. -/
theorem chain'_collapseWs (l : Str) :
    (collapseWs l).Chain' (fun a b => ¬(isJsWs a = true ∧ isJsWs b = true)) := by
  induction l with
  | nil => simp [collapseWs]
  | cons a rest ih =>
    cases rest with
    | nil =>
      simp only [collapseWs]
      split_ifs <;> simp
    | cons b rest' =>
      rw [collapseWs]
      split_ifs with hab ha
      · exact ih
      · rw [List.chain'_cons']
        refine ⟨?_, ih⟩
        intro y hy
        have hb : isJsWs b = false := by
          by_cases hb' : isJsWs b = true
          · exact absurd (by simp [ha, hb']) hab
          · simpa using hb'
        rw [collapseWs_head?_of_not_ws hb] at hy
        have hyb : b = y := by simpa using hy
        subst hyb
        rintro ⟨-, hcon⟩
        rw [hb] at hcon
        exact absurd hcon (by simp)
      · rw [List.chain'_cons']
        refine ⟨?_, ih⟩
        intro y hy
        rintro ⟨hcon, -⟩
        exact ha hcon

/-- The head of what `dropWhile p` leaves fails `p`. -/
theorem dropWhile_head?_not {p : Char → Bool} (l : Str) :
    ∀ c, (l.dropWhile p).head? = some c → p c = false := by
  induction l with
  | nil => intro c h; simp at h
  | cons a rest ih =>
    intro c h
    by_cases hp : p a = true
    · rw [List.dropWhile_cons, if_pos hp] at h
      exact ih c h
    · rw [List.dropWhile_cons, if_neg hp] at h
      have : a = c := by simpa using h
      subst this
      simpa using hp

/-- A non-empty suffix has the same last element as the full list. -/
theorem getLast?_of_suffix {l' l : Str} (h : l' <:+ l) (hne : l' ≠ []) :
    l'.getLast? = l.getLast? := by
  obtain ⟨pre, rfl⟩ := h
  rw [List.getLast?_append]
  cases hc : l'.getLast? with
  | none =>
    exact absurd (by simpa using hc) hne
  | some x => simp

/-- The head of `jsTrim l` is not whitespace. -/
theorem jsTrim_head?_not_ws (l : Str) :
    ∀ c, (jsTrim l).head? = some c → isJsWs c = false := by
  intro c h
  unfold jsTrim at h
  rw [List.head?_reverse] at h
  have hne : ((l.dropWhile isJsWs).reverse).dropWhile isJsWs ≠ [] := by
    intro he
    rw [he] at h
    simp at h
  rw [getLast?_of_suffix (List.dropWhile_suffix _) hne,
    List.getLast?_reverse] at h
  exact dropWhile_head?_not l c h

/-- The last element of `jsTrim l` is not whitespace. -/
theorem jsTrim_getLast?_not_ws (l : Str) :
    ∀ c, (jsTrim l).getLast? = some c → isJsWs c = false := by
  intro c h
  unfold jsTrim at h
  rw [List.getLast?_reverse] at h
  exact dropWhile_head?_not _ c h

/-- `jsTrim` preserves a symmetric adjacency invariant. -/
theorem chain'_jsTrim {R : Char → Char → Prop}
    (hsymm : ∀ a b, R a b → R b a) {l : Str} (h : l.Chain' R) :
    (jsTrim l).Chain' R := by
  unfold jsTrim
  have h1 : (l.dropWhile isJsWs).Chain' R :=
    h.suffix (List.dropWhile_suffix _)
  have h2 : ((l.dropWhile isJsWs).reverse).Chain' R := by
    rw [List.chain'_reverse]
    exact h1.imp (fun a b hab => hsymm a b hab)
  have h3 : ((l.dropWhile isJsWs).reverse.dropWhile isJsWs).Chain' R :=
    h2.suffix (List.dropWhile_suffix _)
  rw [List.chain'_reverse]
  exact h3.imp (fun a b hab => hsymm a b hab)

/-- Every character of a `normalizeText` image is lower-case-fixed and
kept. -/
theorem normalizeText_mem {s : Str} {c : Char} (h : c ∈ normalizeText s) :
    Char.toLower c = c ∧ keepChar c = true := by
  unfold normalizeText at h
  have h1 := mem_jsTrim h
  rcases mem_collapseWs h1 with rfl | h2
  · exact ⟨by decide, by decide⟩
  · rw [List.mem_map] at h2
    obtain ⟨x, hx, rfl⟩ := h2
    have hx' := mem_jsTrim hx
    rw [List.mem_map] at hx'
    obtain ⟨y, _, rfl⟩ := hx'
    unfold sanitizeChar
    by_cases hk : keepChar (Char.toLower y) = true
    · rw [if_pos hk]
      exact ⟨toLower_toLower y, hk⟩
    · rw [if_neg hk]
      exact ⟨by decide, by decide⟩

/-- `normalizeText` images are canonical. -/
theorem canon_normalizeText (s : Str) : CanonStr (normalizeText s) := by
  refine ⟨fun c hc => (normalizeText_mem hc).1,
    fun c hc => (normalizeText_mem hc).2,
    ?_, ?_, ?_, ?_⟩
  · intro c hc hw
    unfold normalizeText at hc
    exact ws_collapseWs (mem_jsTrim hc) hw
  · unfold normalizeText
    exact chain'_jsTrim (fun a b hab hc => hab ⟨hc.2, hc.1⟩)
      (chain'_collapseWs _)
  · intro c hc
    unfold normalizeText at hc
    exact jsTrim_head?_not_ws _ c hc
  · intro c hc
    unfold normalizeText at hc
    exact jsTrim_getLast?_not_ws _ c hc

/-- C8: `normalizeText` is idempotent. -/
theorem c8_normalize_idempotent (s : Str) :
    normalizeText (normalizeText s) = normalizeText s :=
  normalizeText_eq_self (canon_normalizeText s)

/-! ### C7 -/

/-- `pairStep` in terms of the claim-side containment condition and
relevance formula. -/
theorem pairStep_eq (st t : Str) (m : Rat) :
    pairStep st t m =
      if oneContains (normalizeText t) st = true
      then max m (specRelevance st (normalizeText t)) else m := by
  simp only [pairStep, oneContains, specRelevance]
  split_ifs with h
  · congr 1
    rw [min_comm, max_comm]
    ring
  · rfl

/-- A relevance step never decreases the accumulator. -/
theorem le_pairStep (st t : Str) (m : Rat) : m ≤ pairStep st t m := by
  rw [pairStep_eq]
  split_ifs
  · exact le_max_left _ _
  · exact le_refl m

/-- The inner relevance fold never decreases the accumulator. -/
theorem le_innerFold (st : Str) (ts : List Str) (m : Rat) :
    m ≤ innerFold st ts m := by
  induction ts generalizing m with
  | nil => exact le_refl m
  | cons t rest ih =>
    exact le_trans (le_pairStep st t m) (ih (pairStep st t m))

/-- The outer relevance fold never decreases the accumulator. -/
theorem le_outerFold (sts ts : List Str) (m : Rat) :
    m ≤ sts.foldl (fun m' st => innerFold st ts m') m := by
  induction sts generalizing m with
  | nil => exact le_refl m
  | cons st rest ih =>
    exact le_trans (le_innerFold st ts m) (ih (innerFold st ts m))

/-- `maxRelevance` is non-negative. -/
theorem maxRelevance_nonneg (sts ts : List Str) :
    0 ≤ maxRelevance sts ts :=
  le_outerFold sts ts 0

/-- The inner fold either leaves the accumulator or returns the
relevance of a containing pair. -/
theorem innerFold_cases (st : Str) (ts : List Str) (m : Rat) :
    innerFold st ts m = m ∨
    ∃ t ∈ ts, oneContains (normalizeText t) st = true ∧
      innerFold st ts m = specRelevance st (normalizeText t) := by
  induction ts generalizing m with
  | nil => exact Or.inl rfl
  | cons t rest ih =>
    have hstep : innerFold st (t :: rest) m = innerFold st rest (pairStep st t m) := rfl
    rcases ih (pairStep st t m) with h | ⟨t', ht', hc, he⟩
    · rw [hstep, h, pairStep_eq]
      split_ifs with hc
      · rcases max_choice m (specRelevance st (normalizeText t)) with hm | hm
        · exact Or.inl hm
        · exact Or.inr ⟨t, by simp, hc, hm⟩
      · exact Or.inl rfl
    · exact Or.inr ⟨t', by simp [ht'], hc, by rw [hstep]; exact he⟩

/-- The outer fold either leaves the accumulator or returns the
relevance of a containing pair. -/
theorem outerFold_cases (sts ts : List Str) (m : Rat) :
    sts.foldl (fun m' st => innerFold st ts m') m = m ∨
    ∃ st ∈ sts, ∃ t ∈ ts, oneContains (normalizeText t) st = true ∧
      sts.foldl (fun m' st => innerFold st ts m') m
        = specRelevance st (normalizeText t) := by
  induction sts generalizing m with
  | nil => exact Or.inl rfl
  | cons st rest ih =>
    have hstep : (st :: rest).foldl (fun m' st => innerFold st ts m') m
        = rest.foldl (fun m' st => innerFold st ts m') (innerFold st ts m) := rfl
    rcases ih (innerFold st ts m) with h | ⟨st', hst', t', ht', hc, he⟩
    · rcases innerFold_cases st ts m with h' | ⟨t, ht, hc, he⟩
      · exact Or.inl (by rw [hstep, h, h'])
      · exact Or.inr ⟨st, by simp, t, ht, hc, by rw [hstep, h, he]⟩
    · exact Or.inr ⟨st', by simp [hst'], t', ht', hc, by rw [hstep]; exact he⟩

/-- A non-zero `maxRelevance` is the relevance of some containing
(search term, candidate term) pair. -/
theorem maxRelevance_attained (sts ts : List Str)
    (h : maxRelevance sts ts ≠ 0) :
    ∃ st ∈ sts, ∃ t ∈ ts, oneContains (normalizeText t) st = true ∧
      maxRelevance sts ts = specRelevance st (normalizeText t) := by
  rcases outerFold_cases sts ts 0 with h0 | hex
  · exact absurd h0 h
  · exact hex

/-- On a containing pair, the step result dominates the pair's
relevance. -/
theorem pairStep_ub (st t : Str) (m : Rat)
    (hc : oneContains (normalizeText t) st = true) :
    specRelevance st (normalizeText t) ≤ pairStep st t m := by
  rw [pairStep_eq, if_pos hc]
  exact le_max_right _ _

/-- The inner fold dominates the relevance of every containing pair in
its list. -/
theorem innerFold_ub (st : Str) (ts : List Str) (m : Rat) (t : Str)
    (ht : t ∈ ts) (hc : oneContains (normalizeText t) st = true) :
    specRelevance st (normalizeText t) ≤ innerFold st ts m := by
  induction ts generalizing m with
  | nil => simp at ht
  | cons t0 rest ih =>
    have hstep : innerFold st (t0 :: rest) m = innerFold st rest (pairStep st t0 m) := rfl
    rcases List.mem_cons.mp ht with rfl | ht'
    · rw [hstep]
      exact le_trans (pairStep_ub st t m hc) (le_innerFold st rest _)
    · rw [hstep]
      exact ih (pairStep st t0 m) ht'

/-- `maxRelevance` dominates the relevance of every containing pair. -/
theorem maxRelevance_ub (sts ts : List Str) (st t : Str)
    (hst : st ∈ sts) (ht : t ∈ ts)
    (hc : oneContains (normalizeText t) st = true) :
    specRelevance st (normalizeText t) ≤ maxRelevance sts ts := by
  unfold maxRelevance
  generalize (0 : Rat) = m
  induction sts generalizing m with
  | nil => simp at hst
  | cons st0 rest ih =>
    have hstep : (st0 :: rest).foldl (fun m' st => innerFold st ts m') m
        = rest.foldl (fun m' st => innerFold st ts m') (innerFold st0 ts m) := rfl
    rcases List.mem_cons.mp hst with rfl | hst'
    · rw [hstep]
      exact le_trans (innerFold_ub st ts m t ht hc) (le_outerFold rest ts _)
    · rw [hstep]
      exact ih hst' (innerFold st0 ts m)

/-- The claim-side relevance never exceeds 100. -/
theorem specRelevance_le_100 (a b : Str) : specRelevance a b ≤ 100 := by
  unfold specRelevance
  by_cases hy : max a.length b.length = 0
  · rw [hy]
    norm_num
  · have hy' : (0 : Rat) < ((max a.length b.length : Nat) : Rat) := by
      exact_mod_cast Nat.pos_of_ne_zero hy
    rw [div_le_iff₀ hy']
    have hmm : ((min a.length b.length : Nat) : Rat)
        ≤ ((max a.length b.length : Nat) : Rat) := by
      exact_mod_cast le_trans (min_le_left _ _) (le_max_left _ _)
    nlinarith

/-- Membership in a stable insertion. -/
theorem mem_sortInsert (x z : Suggestion) (l : List Suggestion) :
    z ∈ sortInsert x l ↔ z = x ∨ z ∈ l := by
  induction l with
  | nil => simp [sortInsert]
  | cons y ys ih =>
    rw [sortInsert]
    split_ifs with hlt
    · simp [List.mem_cons]
    · simp only [List.mem_cons, ih]
      tauto

/-- Stable insertion preserves the descending-relevance invariant. -/
theorem pairwise_sortInsert (x : Suggestion) (l : List Suggestion)
    (h : l.Pairwise (fun a b => b.relevance ≤ a.relevance)) :
    (sortInsert x l).Pairwise (fun a b => b.relevance ≤ a.relevance) := by
  induction l with
  | nil => simp [sortInsert]
  | cons y ys ih =>
    rw [sortInsert]
    split_ifs with hlt
    · rw [List.pairwise_cons]
      refine ⟨?_, h⟩
      intro z hz
      rcases List.mem_cons.mp hz with rfl | hz'
      · exact le_of_lt hlt
      · exact le_trans ((List.pairwise_cons.mp h).1 z hz') (le_of_lt hlt)
    · rw [List.pairwise_cons]
      refine ⟨?_, ih (List.pairwise_cons.mp h).2⟩
      intro z hz
      rcases (mem_sortInsert x z ys).mp hz with rfl | hz'
      · exact not_lt.mp hlt
      · exact (List.pairwise_cons.mp h).1 z hz'

/-- Membership in the sort fold. -/
theorem mem_sortFold (l : List Suggestion) :
    ∀ (acc : List Suggestion) (z : Suggestion),
      z ∈ l.foldl (fun a x => sortInsert x a) acc ↔ z ∈ acc ∨ z ∈ l := by
  induction l with
  | nil => intro acc z; simp
  | cons x rest ih =>
    intro acc z
    rw [List.foldl_cons, ih (sortInsert x acc) z, mem_sortInsert]
    simp only [List.mem_cons]
    tauto

/-- Membership in the stable sort. -/
theorem mem_sortByRelevance (l : List Suggestion) (z : Suggestion) :
    z ∈ sortByRelevance l ↔ z ∈ l := by
  unfold sortByRelevance
  rw [mem_sortFold l [] z]
  simp

/-- The stable sort is descending in relevance. -/
theorem pairwise_sortByRelevance (l : List Suggestion) :
    (sortByRelevance l).Pairwise (fun a b => b.relevance ≤ a.relevance) := by
  unfold sortByRelevance
  have key : ∀ (acc : List Suggestion),
      acc.Pairwise (fun a b => b.relevance ≤ a.relevance) →
      (l.foldl (fun a x => sortInsert x a) acc).Pairwise
        (fun a b => b.relevance ≤ a.relevance) := by
    induction l with
    | nil => intro acc h; exact h
    | cons x rest ih =>
      intro acc h
      rw [List.foldl_cons]
      exact ih (sortInsert x acc) (pairwise_sortInsert x acc h)
  exact key [] (by simp)

/-- Stable insertion appends a tied element after the existing elements
of equal relevance. -/
theorem filter_sortInsert (x : Suggestion) (l : List Suggestion) (r : Rat)
    (h : l.Pairwise (fun a b => b.relevance ≤ a.relevance)) :
    (sortInsert x l).filter (fun s => decide (s.relevance = r))
      = l.filter (fun s => decide (s.relevance = r))
        ++ (if x.relevance = r then [x] else []) := by
  induction l with
  | nil =>
    by_cases hr : x.relevance = r <;> simp [sortInsert, hr]
  | cons y ys ih =>
    rw [sortInsert]
    by_cases hlt : y.relevance < x.relevance
    · rw [if_pos hlt]
      by_cases hr : x.relevance = r
      · have hnone : (y :: ys).filter (fun s => decide (s.relevance = r)) = [] := by
          rw [List.filter_eq_nil_iff]
          intro z hz
          have hzle : z.relevance ≤ y.relevance := by
            rcases List.mem_cons.mp hz with rfl | hz'
            · exact le_refl _
            · exact (List.pairwise_cons.mp h).1 z hz'
          simp only [decide_eq_true_eq]
          intro heq
          rw [heq, ← hr] at hzle
          exact absurd hlt (not_lt.mpr hzle)
        rw [List.filter_cons_of_pos (by simp [hr]), hnone, if_pos hr]
        simp
      · rw [List.filter_cons_of_neg (by simp [hr]), if_neg hr]
        simp
    · rw [if_neg hlt]
      have htail := ih (List.pairwise_cons.mp h).2
      by_cases hy : y.relevance = r
      · rw [List.filter_cons_of_pos (by simp [hy]), htail,
          List.filter_cons_of_pos (by simp [hy])]
        simp
      · rw [List.filter_cons_of_neg (by simp [hy]), htail,
          List.filter_cons_of_neg (by simp [hy])]

/-- The sort fold preserves each relevance class in order. -/
theorem filter_sortFold (l : List Suggestion) :
    ∀ (acc : List Suggestion) (r : Rat),
      acc.Pairwise (fun a b => b.relevance ≤ a.relevance) →
      (l.foldl (fun a x => sortInsert x a) acc).filter
          (fun s => decide (s.relevance = r))
        = acc.filter (fun s => decide (s.relevance = r))
          ++ l.filter (fun s => decide (s.relevance = r)) := by
  induction l with
  | nil => intro acc r h; simp
  | cons x rest ih =>
    intro acc r h
    rw [List.foldl_cons, ih (sortInsert x acc) r (pairwise_sortInsert x acc h),
      filter_sortInsert x acc r h]
    by_cases hr : x.relevance = r
    · rw [if_pos hr, List.filter_cons_of_pos (by simp [hr])]
      simp
    · rw [if_neg hr, List.filter_cons_of_neg (by simp [hr])]
      simp

/-- The stable sort preserves each relevance class in original order. -/
theorem filter_sortByRelevance (l : List Suggestion) (r : Rat) :
    (sortByRelevance l).filter (fun s => decide (s.relevance = r))
      = l.filter (fun s => decide (s.relevance = r)) := by
  unfold sortByRelevance
  rw [filter_sortFold l [] r (by simp)]
  simp

/-- Filtering a prefix-truncation yields a prefix of the filtered
list. -/
theorem filter_take_isPre {α : Type} (p : α → Bool) :
    ∀ (n : Nat) (l : List α), (l.take n).filter p <+: l.filter p := by
  intro n l
  induction l generalizing n with
  | nil => simp
  | cons a rest ih =>
    cases n with
    | zero => simp
    | succ n =>
      rw [List.take_succ_cons]
      by_cases hp : p a = true
      · rw [List.filter_cons_of_pos hp, List.filter_cons_of_pos hp]
        obtain ⟨t, ht⟩ := ih n
        exact ⟨t, by rw [List.cons_append, ht]⟩
      · rw [List.filter_cons_of_neg (by simp [hp]), List.filter_cons_of_neg (by simp [hp])]
        exact ih n

set_option maxHeartbeats 1000000 in
/-- C7: `suggestMatches` returns at most `limit` suggestions, ordered
non-increasing in relevance; each relevance class appears in original
table order (stability); every returned relevance lies in `(0, 100]`;
and each returned suggestion's relevance is the `maxRelevance` of its
table entry: an upper bound on, and attained by, the claim-side formula
`100 * min(len) / max(len)` over all containing (search term, candidate
term) pairs. -/
theorem c7_suggest_properties (synonyms : SynTable) (iconMappings : IconMap)
    (title : Str) (limit : Nat) :
    (suggestMatches synonyms iconMappings title limit).length ≤ limit ∧
    (suggestMatches synonyms iconMappings title limit).Pairwise
      (fun a b => b.relevance ≤ a.relevance) ∧
    (∀ r : Rat,
      (suggestMatches synonyms iconMappings title limit).filter
          (fun s => decide (s.relevance = r)) <+:
        (rawSuggestions synonyms iconMappings (extractKeywords title)).filter
          (fun s => decide (s.relevance = r))) ∧
    (∀ s ∈ suggestMatches synonyms iconMappings title limit,
      (0 < s.relevance ∧ s.relevance ≤ 100) ∧
      ∃ synonymList, (s.keyword, synonymList) ∈ synonyms ∧
        s.relevance
          = maxRelevance (extractKeywords title) (s.keyword :: synonymList) ∧
        (∀ st ∈ extractKeywords title, ∀ t ∈ s.keyword :: synonymList,
          oneContains (normalizeText t) st = true →
          specRelevance st (normalizeText t) ≤ s.relevance) ∧
        (∃ st ∈ extractKeywords title, ∃ t ∈ s.keyword :: synonymList,
          oneContains (normalizeText t) st = true ∧
          s.relevance = specRelevance st (normalizeText t))) := by
  refine ⟨?_, ?_, ?_, ?_⟩
  · unfold suggestMatches
    exact List.length_take_le _ _
  · unfold suggestMatches
    exact List.Pairwise.sublist (List.take_sublist _ _)
      (pairwise_sortByRelevance _)
  · intro r
    unfold suggestMatches
    have h1 := filter_take_isPre (fun s => decide (s.relevance = r)) limit
      (sortByRelevance (rawSuggestions synonyms iconMappings (extractKeywords title)))
    rw [filter_sortByRelevance] at h1
    exact h1
  · intro s hs
    unfold suggestMatches at hs
    have hmem : s ∈ rawSuggestions synonyms iconMappings (extractKeywords title) :=
      (mem_sortByRelevance _ _).mp
        (List.Sublist.mem hs (List.take_sublist _ _))
    rw [rawSuggestions, List.mem_filterMap] at hmem
    obtain ⟨e, he, hfe⟩ := hmem
    by_cases hpos : 0 < maxRelevance (extractKeywords title) (e.1 :: e.2)
    case neg =>
      rw [if_neg hpos] at hfe
      exact absurd hfe (by simp)
    rw [if_pos hpos] at hfe
    injection hfe with hfe
    subst hfe
    have hne : maxRelevance (extractKeywords title) (e.1 :: e.2) ≠ 0 :=
      ne_of_gt hpos
    constructor
    · refine ⟨hpos, ?_⟩
      obtain ⟨st, hst, t, ht, hc, heq⟩ := maxRelevance_attained _ _ hne
      show maxRelevance (extractKeywords title) (e.1 :: e.2) ≤ 100
      rw [heq]
      exact specRelevance_le_100 _ _
    · refine ⟨e.2, ?_, rfl, ?_, ?_⟩
      · exact Prod.mk.eta ▸ he
      · intro st hst t ht hc
        exact maxRelevance_ub _ _ st t hst ht hc
      · obtain ⟨st, hst, t, ht, hc, heq⟩ := maxRelevance_attained _ _ hne
        exact ⟨st, hst, t, ht, hc, heq⟩

/-- Concrete evaluation of `suggestMatches` on `dogTable` and the title
`"dog"`: a single suggestion for `dog` with relevance 100. -/
theorem suggest_demo_eval :
    suggestMatches dogTable [] "dog".toList 3
      = [⟨"dog".toList, Option.none, 100⟩] := by
  have hek : extractKeywords "dog".toList
      = ["dog".toList, "dog".toList, "dog".toList] := by decide
  have hnt : normalizeText "dog".toList = "dog".toList := by decide
  have hntp : normalizeText "puppy".toList = "puppy".toList := by decide
  have hlen3 : ("dog".toList).length = 3 := by decide
  have hspec : specRelevance "dog".toList "dog".toList = 100 := by
    unfold specRelevance
    rw [hlen3]
    norm_num
  have hps : ∀ m : Rat, pairStep "dog".toList "dog".toList m = max m 100 := by
    intro m
    rw [pairStep_eq, hnt, if_pos (by decide), hspec]
  have hpp : ∀ m : Rat, pairStep "dog".toList "puppy".toList m = m := by
    intro m
    rw [pairStep_eq, hntp, if_neg (by decide)]
  have hif : ∀ m : Rat,
      innerFold "dog".toList ["dog".toList, "puppy".toList] m = max m 100 := by
    intro m
    unfold innerFold
    rw [List.foldl_cons, List.foldl_cons, List.foldl_nil, hps, hpp]
  have hmr : maxRelevance ["dog".toList, "dog".toList, "dog".toList]
      ["dog".toList, "puppy".toList] = 100 := by
    unfold maxRelevance
    rw [List.foldl_cons, List.foldl_cons, List.foldl_cons, List.foldl_nil,
      hif, hif, hif, max_eq_right (by norm_num : (0 : Rat) ≤ 100),
      max_self, max_self]
  have hraw : rawSuggestions dogTable []
      ["dog".toList, "dog".toList, "dog".toList]
      = [⟨"dog".toList, Option.none, 100⟩] := by
    unfold rawSuggestions dogTable
    rw [List.filterMap_cons]
    simp only [hmr]
    rw [if_pos (by norm_num : (0 : Rat) < 100)]
    rfl
  unfold suggestMatches
  rw [hek, hraw]
  rfl

/-- C7, witness: on `dogTable` with title `"dog"` and limit 3, the
theorem's bound and range facts hold at the concrete suggestion. -/
theorem c7_witness :
    (suggestMatches dogTable [] "dog".toList 3).length ≤ 3 ∧
    (0 : Rat) <
      (⟨"dog".toList, Option.none, (100 : Rat)⟩ : Suggestion).relevance ∧
    (⟨"dog".toList, Option.none, (100 : Rat)⟩ : Suggestion).relevance ≤ 100 := by
  have h := c7_suggest_properties dogTable [] "dog".toList 3
  have hmem : (⟨"dog".toList, Option.none, (100 : Rat)⟩ : Suggestion)
      ∈ suggestMatches dogTable [] "dog".toList 3 := by
    rw [suggest_demo_eval]
    exact List.mem_singleton.mpr rfl
  have h4 := (h.2.2.2 _ hmem).1
  exact ⟨h.1, h4.1, h4.2⟩
